import Mathlib

/-!
Verification development for the segregated-list memory allocator in src/mm.c.

The development contains three layers, each translated from the C source:

* `MM` — a byte-level model of the heap.  Memory is a function from byte
  addresses to byte values; `set16`/`get16`/`set32`/`get32` are the
  little-endian accessors of mm.c, `setH`/`setF` are the header/footer
  writers, and `malloc`/`free`/`realloc`/`calloc` are transcribed
  statement by statement.  The host `mem_sbrk` is modelled by a byte
  budget `hostMax` carried in the state.
* `MM.Seg` — a list-level model of the segregated-list search
  (`find_fit`, lines 530-609) in which each bin is the sequence of
  `(address, size)` pairs visited by the traversal `root, get_prev root, ...`.
* `MM.BM` — a block-level model of the heap as the list of real blocks
  between prologue and epilogue (each block carrying its size, its
  allocation bit and its predecessor-allocation header bit), with
  `coalesce`, `place`, `free` and heap extension transcribed case by
  case.  The wilderness is the last block of the list (invariant I5);
  the segregated lists, which never affect the block structure, are
  modelled in `MM.Seg`.
-/

namespace MM

/-- Heap memory: byte value at each address.  `mem_heap_lo()` is address 0,
so the 32-bit offsets of mm.c coincide with addresses (`get_offset p = p`,
`get_address o = o`). -/
def Mem : Type := Nat → Nat

/-- The all-zero memory. -/
def mem0 : Mem := fun _ => 0

/-- Write one byte (values are kept below 256). -/
def write8 (m : Mem) (a v : Nat) : Mem := fun x => if x = a then v % 256 else m x

/-- Read one byte. -/
def read8 (m : Mem) (a : Nat) : Nat := m a % 256

/-- `set16` of mm.c: store a 16-bit value little-endian. -/
def set16 (m : Mem) (a v : Nat) : Mem := write8 (write8 m a v) (a + 1) (v / 256)

/-- `get16` of mm.c: load a 16-bit value little-endian. -/
def get16 (m : Mem) (a : Nat) : Nat := read8 m a + 256 * read8 m (a + 1)

/-- `set32` of mm.c: store a 32-bit value little-endian. -/
def set32 (m : Mem) (a v : Nat) : Mem :=
  write8 (write8 (write8 (write8 m a v) (a + 1) (v / 256)) (a + 2) (v / 65536))
    (a + 3) (v / 16777216)

/-- `get32` of mm.c: load a 32-bit value little-endian. -/
def get32 (m : Mem) (a : Nat) : Nat :=
  read8 m a + 256 * read8 m (a + 1) + 65536 * read8 m (a + 2) +
    16777216 * read8 m (a + 3)

/-- `pack16(size, large, prev, alloc)`: `size | large | prev | alloc`. -/
def pack16 (size large prev alloc : Nat) : Nat :=
  Nat.lor (Nat.lor (Nat.lor size large) prev) alloc

/-- `pack32(size, large, prev, alloc)`: `size | large | prev | alloc`. -/
def pack32 (size large prev alloc : Nat) : Nat :=
  Nat.lor (Nat.lor (Nat.lor size large) prev) alloc

/-- `hdrp(p) = p - HSIZE` (HSIZE = 2). -/
def hdrp (p : Nat) : Nat := p - 2

/-- `setH(p, size, prev, alloc)` (mm.c lines 202-216): a compact 2-byte
header at `p - 2` when `size < 65536`; otherwise the compact word holds the
sentinel 65528 with the large bit, and the true 32-bit size goes to
`p + WSIZE = p + 4`. -/
def setH (m : Mem) (p size prev alloc : Nat) : Mem :=
  if size < 65536 then
    set16 m (hdrp p) (pack16 size 0 prev alloc)
  else
    set32 (set16 m (hdrp p) (pack16 65528 4 prev alloc)) (p + 4)
      (pack32 size 4 prev alloc)

/-- `get_alloc(p)`: bit 0 of the 16-bit word at `p`. -/
def get_alloc (m : Mem) (p : Nat) : Nat := Nat.land (get16 m p) 1

/-- `get_large(p)`: bit 2 of the 16-bit word at `p`, shifted down. -/
def get_large (m : Mem) (p : Nat) : Nat := Nat.land (get16 m p) 4 >>> 2

/-- `get_palloc(p)`: bit 1 of the 16-bit word at `p` (not shifted). -/
def get_palloc (m : Mem) (p : Nat) : Nat := Nat.land (get16 m p) 2

/-- `geth_size(p)` (mm.c lines 310-317): read the block size from the
header of block `p`; for a large header the 32-bit word at `p + 4`. -/
def geth_size (m : Mem) (p : Nat) : Nat :=
  if get_large m (hdrp p) = 1 then Nat.land (get32 m (p + 4)) 4294967288
  else Nat.land (get16 m (hdrp p)) 65528

/-- `ftrp(p) = p + geth_size(p) - WSIZE`. -/
def ftrp (m : Mem) (p : Nat) : Nat := p + geth_size m p - 4

/-- `setF(p, size, prev, alloc)` (mm.c lines 217-231): footer at
`ftrp p`; for a large block the 32-bit size goes to `ftrp p - 4`. -/
def setF (m : Mem) (p size prev alloc : Nat) : Mem :=
  if size < 65536 then
    set16 m (ftrp m p) (pack16 size 0 prev alloc)
  else
    set32 (set16 m (ftrp m p) (pack16 65528 4 prev alloc)) (ftrp m p - 4)
      (pack32 size 4 prev alloc)

/-- `next_blkp(p) = p + geth_size(p)`. -/
def next_blkp (m : Mem) (p : Nat) : Nat := p + geth_size m p

/-- `prev_blkp(p)` (mm.c lines 299-309): read the preceding block's footer
at `p - 4` and step back by its size. -/
def prev_blkp (m : Mem) (p : Nat) : Nat :=
  if get_large m (p - 4) = 1 then p - Nat.land (get32 m (p - 8)) 4294967288
  else p - Nat.land (get16 m (p - 4)) 65528

/-- `set_alloc(p, val)`: `set16(p, (get16(p) & ~1) | val)`. -/
def set_alloc (m : Mem) (p v : Nat) : Mem :=
  set16 m p (Nat.lor (Nat.land (get16 m p) 65534) v)

/-- `set_palloc(p, val)`: `set16(p, (get16(p) & ~2) | val)`. -/
def set_palloc (m : Mem) (p v : Nat) : Mem :=
  set16 m p (Nat.lor (Nat.land (get16 m p) 65533) v)

/-- `get_prev(p)`: the stored predecessor link, at payload offset
`DSIZE * get_large(hdrp p)`. -/
def get_prev (m : Mem) (p : Nat) : Nat := get32 m (p + 8 * get_large m (hdrp p))

/-- `get_next(p)`: the stored successor link, at payload offset
`WSIZE + DSIZE * get_large(hdrp p)`. -/
def get_next (m : Mem) (p : Nat) : Nat :=
  get32 m (p + 4 + 8 * get_large m (hdrp p))

/-- `set_prev(p, val)`. -/
def set_prev (m : Mem) (p v : Nat) : Mem :=
  set32 m (p + 8 * get_large m (hdrp p)) v

/-- `set_next(p, val)`. -/
def set_next (m : Mem) (p v : Nat) : Mem :=
  set32 m (p + 4 + 8 * get_large m (hdrp p)) v

/-- `get_index(asize)` (mm.c lines 365-383): the segregated-list bin of an
adjusted size. -/
def get_index (asize : Nat) : Nat :=
  if asize ≤ 48 then (asize >>> 3) - 2
  else if asize ≤ 72 then 5
  else if asize ≤ 136 then 6
  else if asize ≤ 264 then 7
  else if asize ≤ 520 then 8
  else if asize ≤ 1032 then 9
  else if asize ≤ 2056 then 10
  else if asize ≤ 4104 then 11
  else if asize ≤ 16392 then 12
  else if asize ≤ 32774 then 13
  else if asize ≤ 262152 then 14
  else 15

/-- The size adjustment of `malloc` before the minimum-block floor
(mm.c line 742): `((size + 1) / DSIZE) * DSIZE + DSIZE`. -/
def asize0 (size : Nat) : Nat := (size + 1) / 8 * 8 + 8

/-- The size adjustment of `malloc` after the minimum-block floor
(mm.c lines 742-744): add `DSIZE` when `size <= DSIZE - 2`. -/
def asize1 (size : Nat) : Nat := if size ≤ 6 then asize0 size + 8 else asize0 size

/-- Whether `malloc` takes the large-block path (mm.c line 745):
the adjusted size reached 65536. -/
def isLargeReq (size : Nat) : Bool := decide (65536 ≤ asize1 size)

/-- The final adjusted block size of `malloc` (mm.c lines 742-747): on the
large path another `2 * DSIZE = 16` bytes are added. -/
def asizeF (size : Nat) : Nat :=
  if 65536 ≤ asize1 size then asize1 size + 16 else asize1 size

/-- The block-start recovery performed by `free` (mm.c lines 812-816):
read the large bit at `hdrp ptr = ptr - 2`; if set, the block starts at
`ptr - DSIZE = ptr - 8`, otherwise at `ptr` itself. -/
def free_block_start (m : Mem) (ptr : Nat) : Nat :=
  if get_large m (hdrp ptr) = 1 then ptr - 8 else ptr

/-- The allocator state: the heap bytes, the current break (`mem_heap_hi + 1`),
the host's byte budget (`mem_sbrk` succeeds while the break stays within it),
and the global pointers of mm.c (lines 79-82).  `seg_list` lives at address 0.
The statistics counters `num`/`tot`/`alloc` are debug output only and are not
part of the heap state. -/
structure St where
  mem : Mem
  brk : Nat
  hostMax : Nat
  heap_start : Nat
  wilderness : Nat
  heap_end : Nat

/-- The empty pre-`mm_init` state. -/
def st_empty : St :=
  { mem := mem0, brk := 0, hostMax := 0, heap_start := 0, wilderness := 0,
    heap_end := 0 }

/-- `mem_sbrk(size)`: extend the heap, returning the previous break, or fail
when the host budget is exhausted. -/
def mem_sbrk (st : St) (size : Nat) : Option (Nat × St) :=
  if st.brk + size ≤ st.hostMax then some (st.brk, { st with brk := st.brk + size })
  else none

/-- `seg_list[i]` (a 32-bit root table at the bottom of the heap). -/
def seg_get (m : Mem) (i : Nat) : Nat := get32 m (4 * i)

/-- Store to `seg_list[i]`. -/
def seg_set (m : Mem) (i v : Nat) : Mem := set32 m (4 * i) v

/-- `add_free_block(ptr)` (mm.c lines 388-420): LIFO push of a free block
onto the root of its bin. -/
def add_free_block (st : St) (ptr : Nat) : St :=
  let size := geth_size st.mem ptr
  let index := get_index size
  let last := seg_get st.mem index
  if last = 0 then
    let m1 := seg_set st.mem index ptr
    let m2 := set_prev m1 ptr 0
    let m3 := set_next m2 ptr 0
    { st with mem := m3 }
  else
    let m1 := seg_set st.mem index ptr
    let m2 := set_prev m1 ptr last
    let m3 := set_next m2 ptr 0
    let m4 := set_next m3 last ptr
    { st with mem := m4 }

/-- `remove_free_block(ptr)` (mm.c lines 425-456): splice a free block out
of its bin. -/
def remove_free_block (st : St) (ptr : Nat) : St :=
  let size := geth_size st.mem ptr
  let index := get_index size
  let last := seg_get st.mem index
  let offset := ptr
  if last = offset then
    let prev := get_prev st.mem ptr
    let m1 := seg_set st.mem index prev
    if prev ≠ 0 then { st with mem := set_next m1 prev 0 }
    else { st with mem := m1 }
  else
    if get_prev st.mem ptr = 0 then
      { st with mem := set_prev st.mem (get_next st.mem ptr) 0 }
    else
      let m1 := set_prev st.mem (get_next st.mem ptr) (get_prev st.mem ptr)
      let m2 := set_next m1 (get_prev m1 ptr) (get_next m1 ptr)
      { st with mem := m2 }

/-- `coalesce(bp)` (mm.c lines 462-525): merge the newly freed block with
its free neighbours, removing absorbed blocks from their bins unless they
are the wilderness.  Returns the state and the resulting block pointer. -/
def coalesce (st : St) (bp : Nat) : St × Nat :=
  let m := st.mem
  let next := next_blkp m bp
  let prev_alloc := get_palloc m (hdrp bp)
  let next_alloc := get_alloc m (hdrp next)
  let size := geth_size m bp
  if prev_alloc ≠ 0 ∧ next_alloc ≠ 0 then
    ({ st with mem := set_alloc m (ftrp m bp) 0 }, bp)
  else if prev_alloc ≠ 0 ∧ next_alloc = 0 then
    let size2 := size + geth_size m next
    let st1 := if next ≠ st.wilderness then remove_free_block st next else st
    let m1 := setH st1.mem bp size2 2 0
    let m2 := setF m1 bp size2 2 0
    ({ st1 with mem := m2 }, bp)
  else if prev_alloc = 0 ∧ next_alloc ≠ 0 then
    let prev := prev_blkp m bp
    let pr := get_palloc m (hdrp prev)
    let size2 := size + geth_size m prev
    let st1 := if prev ≠ st.wilderness then remove_free_block st prev else st
    let m1 := setH st1.mem prev size2 pr 0
    let m2 := setF m1 prev size2 pr 0
    ({ st1 with mem := m2 }, prev_blkp m2 bp)
  else
    let prev := prev_blkp m bp
    let size2 := size + geth_size m prev + geth_size m next
    let st1 := if prev ≠ st.wilderness then remove_free_block st prev else st
    let st2 := if next ≠ st1.wilderness then remove_free_block st1 next else st1
    let m1 := setH st2.mem prev size2 2 0
    let m2 := setF m1 next size2 2 0
    ({ st2 with mem := m2 }, prev)

/-- The inner list walk of `find_fit` (mm.c lines 576-592): follow `get_prev`
links tracking the best fit.  `fuel` bounds the walk (any value at least the
list length gives the loop's semantics). -/
def ff_walk (m : Mem) (asize : Nat) : Nat → Nat → Nat → Option Nat → Option Nat
  | 0, _, _, minAdd => minAdd
  | _ + 1, 0, _, minAdd => minAdd
  | fuel + 1, p, min, minAdd =>
    let np := get_prev m p
    let sz := geth_size m p
    if asize ≤ sz ∧ sz - asize < min then ff_walk m asize fuel np (sz - asize) (some p)
    else ff_walk m asize fuel np min minAdd

/-- One bin of the `find_fit` search (mm.c lines 548-600): check the root,
return it immediately for the exact bins 0-4, otherwise best-fit over the
whole list. -/
def ff_bin (m : Mem) (fuel asize i : Nat) : Option Nat :=
  let root := seg_get m i
  if root = 0 then none
  else
    let sz := geth_size m root
    if asize ≤ sz ∧ sz - asize < 4294967295 then
      if i ≤ 4 then some root
      else ff_walk m asize fuel (get_prev m root) (sz - asize) (some root)
    else ff_walk m asize fuel (get_prev m root) 4294967295 none

/-- The outer bin loop of `find_fit` (mm.c line 535): bins `get_index asize`
through 15. -/
def ff_loop (m : Mem) (wfuel asize : Nat) : Nat → Nat → Option Nat
  | 0, _ => none
  | fuel + 1, i =>
    if i < 16 then
      match ff_bin m wfuel asize i with
      | some a => some a
      | none => ff_loop m wfuel asize fuel (i + 1)
    else none

/-- The bin search of `find_fit`, with walk fuel `st.brk` (free-list nodes
are at least 16 bytes apart, so the heap size bounds every list length). -/
def bin_search (st : St) (asize : Nat) : Option Nat :=
  ff_loop st.mem st.brk asize 16 (get_index asize)

/-- The wilderness test of `find_fit` (mm.c line 604):
`asize <= geth_size(wilderness) - MINSIZE` in 32-bit unsigned arithmetic. -/
def wild_fit (st : St) (asize : Nat) : Bool :=
  decide (asize ≤ (geth_size st.mem st.wilderness + 4294967296 - 16) % 4294967296)

/-- `find_fit(asize)` (mm.c lines 530-609): search the bins (removing the
returned block from its list), else fall back to the wilderness (which is
never removed, as it is in no list). -/
def find_fit (st : St) (asize : Nat) : Option Nat × St :=
  match bin_search st asize with
  | some a => (some a, remove_free_block st a)
  | none => if wild_fit st asize then (some st.wilderness, st) else (none, st)

/-- `place(bp, asize)` (mm.c lines 616-651): allocate `asize` bytes at `bp`,
splitting off the remainder when it can hold a block, the remainder becoming
the new wilderness or a free-list entry. -/
def place (st : St) (bp asize : Nat) : St :=
  let csize := geth_size st.mem bp
  let flag := bp = st.wilderness
  if 16 ≤ (csize + 18446744073709551616 - asize) % 18446744073709551616 then
    let rsize := (csize + 18446744073709551616 - asize) % 18446744073709551616
    let m1 := setH st.mem bp asize 2 1
    let bp2 := next_blkp m1 bp
    let m2 := setH m1 bp2 rsize 2 0
    let m3 := setF m2 bp2 rsize 2 0
    let m4 := set_palloc m3 (hdrp (next_blkp m3 bp2)) 0
    if flag then { st with mem := m4, wilderness := bp2 }
    else add_free_block { st with mem := m4 } bp2
  else
    let m1 := setH st.mem bp csize 2 1
    let m2 := setF m1 bp csize 2 1
    let m3 := set_palloc m2 (hdrp (next_blkp m2 bp)) 2
    { st with mem := m3 }

/-- The even byte count `extend_heap` requests (mm.c line 662):
`(words % 2) ? (words + 1) * WSIZE : words * WSIZE`. -/
def extend_bytes (words : Nat) : Nat :=
  if words % 2 = 1 then (words + 1) * 4 else words * 4

/-- `extend_heap(words)` (mm.c lines 656-677): grow the heap by an even
number of words, overlay a free block (predecessor bit copied from the
wilderness's allocation bit), write a fresh epilogue, and coalesce. -/
def extend_heap (st : St) (words : Nat) : Option (Nat × St) :=
  match mem_sbrk st (extend_bytes words) with
  | none => none
  | some (bp, st0) =>
    let a := get_alloc st0.mem (hdrp st0.wilderness)
    let m1 := setH st0.mem bp (extend_bytes words) (2 * a) 0
    let m2 := setF m1 bp (extend_bytes words) (2 * a) 0
    let hend := next_blkp m2 bp
    let m3 := setH m2 hend 0 0 1
    let st1 := { st0 with mem := m3, heap_end := hend }
    let r := coalesce st1 bp
    some (r.2, r.1)

/-- `mm_init()` (mm.c lines 684-720): zero the 16 roots, write the alignment
pad, the prologue header/footer and the epilogue header, set the globals and
extend by `CHUNKSIZE = 192` bytes. -/
def mm_init (hostMax : Nat) : Option St :=
  let st := { st_empty with hostMax := hostMax }
  match mem_sbrk st 72 with
  | none => none
  | some (hs, st0) =>
    let mz := (List.range 16).foldl (fun m i => set32 m (hs + 4 * i) 0) st0.mem
    let hs1 := hs + 64
    let m1 := set16 mz hs1 0
    let m2 := setH m1 (hs1 + 4) 0 0 1
    let m3 := setF m2 (hs1 + 4) 0 0 1
    let m4 := setH m3 (hs1 + 8) 0 2 1
    let st1 := { st0 with
      mem := m4, heap_start := hs1 + 4, heap_end := hs1 + 8,
      wilderness := hs1 + 8 }
    match extend_heap st1 48 with
    | none => none
    | some (_, st2) => some st2

/-- The word count `malloc` passes to `extend_heap` when no fit is found
(mm.c lines 756-765 and 780-790): leave room for what the wilderness can
already provide, allocate at least `CHUNKSIZE`. -/
def malloc_extend_words (st : St) (asize : Nat) : Nat :=
  let wild := geth_size st.mem st.wilderness
  let t := (wild + 18446744073709551616 - 16) % 18446744073709551616
  let nsize := if t ≤ asize then asize - t else asize
  (if 192 < nsize then nsize else 192) / 4

/-- Dispatch on the result of the `extend_heap` call in `malloc`'s no-fit
path (mm.c lines 765-767 and 790-792): give up on failure, otherwise place
and return the user pointer; `off` is the user-pointer offset (`DSIZE` on
the large path, 0 on the small path). -/
def malloc_grow_step (st1 : St) (asize off : Nat) :
    Option (Nat × St) → Option Nat × St
  | none => (none, st1)
  | some (bp, st2) => (some (bp + off), place st2 bp asize)

/-- The no-fit path of `malloc` (mm.c lines 753-768 and 778-793): extend
the heap, then place or give up. -/
def malloc_grow (st1 : St) (asize off : Nat) : Option Nat × St :=
  malloc_grow_step st1 asize off (extend_heap st1 (malloc_extend_words st1 asize))

/-- Dispatch on the result of the `find_fit` call in `malloc`
(mm.c lines 749-752 and 774-777): place at a fit, otherwise grow. -/
def malloc_fit (asize off : Nat) : Option Nat × St → Option Nat × St
  | (some bp, st1) => (some (bp + off), place st1 bp asize)
  | (none, st1) => malloc_grow st1 asize off

/-- `malloc(size)` (mm.c lines 727-796): adjust the size, search, possibly
extend, place, and return the user pointer (`bp + DSIZE` on the large path,
`bp` on the small path). -/
def malloc (st : St) (size : Nat) : Option Nat × St :=
  if size = 0 then (none, st)
  else
    if 65536 ≤ asize1 size then
      malloc_fit (asize1 size + 16) 8 (find_fit st (asize1 size + 16))
    else
      malloc_fit (asize1 size) 0 (find_fit st (asize1 size))

/-- `free(ptr)` (mm.c lines 803-845): null is a no-op; recover the block
start via `free_block_start`, clear the allocation bits and the successor's
predecessor bit, coalesce, then either become the wilderness or be pushed
onto the free list. -/
def free (st : St) (optr : Option Nat) : St :=
  match optr with
  | none => st
  | some ptr0 =>
    let ptr := free_block_start st.mem ptr0
    let size := geth_size st.mem ptr
    let pr := get_palloc st.mem (hdrp ptr)
    let m1 := setH st.mem ptr size pr 0
    let m2 := setF m1 ptr size pr 0
    let m3 := set_palloc m2 (hdrp (next_blkp m2 ptr)) 0
    let flag := get_palloc m3 (hdrp st.wilderness) = 0 ∧ ptr = prev_blkp m3 st.wilderness
    let r := coalesce { st with mem := m3 } ptr
    if flag then { r.1 with wilderness := r.2 }
    else
      let st2 := add_free_block r.1 r.2
      { st2 with mem := set_palloc st2.mem (hdrp (next_blkp st2.mem r.2)) 0 }

/-- `memcpy(dst, src, n)`: copy `n` bytes of the original memory. -/
def memcpyB (m : Mem) (dst src : Nat) : Nat → Mem
  | 0 => m
  | n + 1 => write8 (memcpyB m dst src n) (dst + n) (m (src + n))

/-- The byte loop of `memset(a, v, n)`. -/
def memset_run (m : Mem) (a v : Nat) : Nat → Mem
  | 0 => m
  | n + 1 => write8 (memset_run m a v n) (a + n) v

/-- `memset` applied to a possibly-null pointer: applying it to the null
pointer is undefined behaviour in C, modelled as the fault `none`. -/
def memsetB (m : Mem) (p : Option Nat) (v n : Nat) : Option Mem :=
  match p with
  | none => none
  | some a => some (memset_run m a v n)

/-- Dispatch on the `malloc` result inside `realloc` (mm.c lines 924-947):
a failed `malloc` propagates null leaving the old block untouched;
otherwise copy `min(size, old payload capacity)` bytes (capacity
`block_size - 18` for large blocks, `block_size - 2` for small ones) and
free the old block. -/
def realloc_move (old size : Nat) : Option Nat × St → Option Nat × St
  | (none, st1) => (none, st1)
  | (some np, st1) =>
    let oldsize :=
      if get_large st1.mem (hdrp old) = 1 then geth_size st1.mem (old - 8) - 18
      else geth_size st1.mem old - 2
    let n := if size < oldsize then size else oldsize
    let m2 := memcpyB st1.mem np old n
    let st2 := free { st1 with mem := m2 } (some old)
    (some np, st2)

/-- `realloc(oldptr, size)` (mm.c lines 853-951): `size = 0` frees;
null `oldptr` is `malloc`; otherwise allocate and hand the result to
`realloc_move`. -/
def realloc (st : St) (oldptr : Option Nat) (size : Nat) : Option Nat × St :=
  if size = 0 then (none, free st oldptr)
  else
    match oldptr with
    | none => malloc st size
    | some old => realloc_move old size (malloc st size)

/-- The byte count `calloc` computes (mm.c line 960): `nmemb * size` in
`size_t` arithmetic, wrapping modulo `2 ^ 64` with no overflow check. -/
def callocBytes (nmemb size : Nat) : Nat := nmemb * size % 18446744073709551616

/-- `calloc(nmemb, size)` (mm.c lines 958-970): `malloc` the wrapped byte
count, then `memset` the result with no null check; a null result makes the
`memset` fault (`none`). -/
def calloc (st : St) (nmemb size : Nat) : Option (Option Nat × St) :=
  match malloc st (callocBytes nmemb size) with
  | (np, st1) =>
    match memsetB st1.mem np 0 (callocBytes nmemb size) with
    | none => none
    | some m2 => some (np, { st1 with mem := m2 })

/-- One block record of the heap sweep: address, size, allocation bit,
predecessor bit, large bit, and the 16-bit footer word. -/
structure BRec where
  addr : Nat
  size : Nat
  alloc : Nat
  palloc : Nat
  large : Nat
  footer : Nat
deriving DecidableEq

/-- Read the record of the block at `bp`. -/
def blockRecord (m : Mem) (bp : Nat) : BRec :=
  { addr := bp, size := geth_size m bp, alloc := get_alloc m (hdrp bp),
    palloc := get_palloc m (hdrp bp), large := get_large m (hdrp bp),
    footer := get16 m (ftrp m bp) }

/-- Sweep the real blocks from `bp` to the first size-0 header, as the heap
checker does (mm.c line 1016). -/
def heap_sweep (m : Mem) (bp : Nat) : Nat → List BRec
  | 0 => []
  | fuel + 1 =>
    if geth_size m bp = 0 then []
    else blockRecord m bp :: heap_sweep m (next_blkp m bp) fuel

/-- The observable heap state: the block topology with header/footer
contents, the prologue and epilogue records, the wilderness and end
pointers, the break, and the 16 segregated-list roots. -/
structure Obs where
  blocks : List BRec
  prologue : BRec
  epilogue : Nat
  wilderness : Nat
  heap_end : Nat
  brk : Nat
  roots : List Nat
deriving DecidableEq

/-- Observe a state. -/
def observe (st : St) : Obs :=
  { blocks := heap_sweep st.mem (st.heap_start + 4) 32,
    prologue := blockRecord st.mem st.heap_start,
    epilogue := get16 st.mem (hdrp st.heap_end),
    wilderness := st.wilderness, heap_end := st.heap_end, brk := st.brk,
    roots := (List.range 16).map (fun i => seg_get st.mem i) }

/-- The post-`mm_init` state with a host budget of exactly the 264 bytes
`mm_init` consumes (so any further extension fails). -/
def st_init_small : St := (mm_init 264).getD st_empty

/-- The post-`mm_init` state with a 70000-byte host budget. -/
def st_init_large : St := (mm_init 70000).getD st_empty

/-- The result of `malloc 65529` (the spec's first claimed large request)
on the freshly initialised heap. -/
def large_run : Option Nat × St := malloc st_init_large 65529

end MM

namespace MM.Seg

/-!
A list-level model of `find_fit` (mm.c lines 530-609) and of `place`
applied to the wilderness (mm.c lines 616-651).  A bin is the sequence of
`(address, size)` pairs in traversal order: the root of `seg_list[i]`
followed by the `get_prev` chain (`add_free_block` pushes at the root, so
this is newest first).  The wilderness is carried as its address and its
size; it is in no bin.
-/

/-- The segregated-list state seen by `find_fit`: the 16 bins in traversal
order, and the wilderness block. -/
structure SegSt where
  seg : Fin 16 → List (Nat × Nat)
  wildAddr : Nat
  wildSize : Nat

/-- The result of the search: a block from a bin, the wilderness, or no
fit. -/
inductive FitRes where
  | found : Nat × Nat → FitRes
  | wilderness : FitRes
  | nofit : FitRes
deriving DecidableEq

/-- The inner `while` loop of `find_fit` (mm.c lines 579-592): walk the
rest of the bin tracking the feasible block with the smallest
`size - asize` (strict improvement only, so the first best stays). -/
def scanRest (asize : Nat) : List (Nat × Nat) → Nat → Option (Nat × Nat) → Option (Nat × Nat)
  | [], _, minAdd => minAdd
  | b :: rest, mn, minAdd =>
    if asize ≤ b.2 ∧ b.2 - asize < mn then scanRest asize rest (b.2 - asize) (some b)
    else scanRest asize rest mn minAdd

/-- One bin of the `find_fit` search (mm.c lines 548-599): check the root
first (with `min = ~0`, i.e. 2^32 - 1); in the exact bins 0-4 a feasible
root is returned immediately; otherwise best-fit over the whole list. -/
def searchBin (i asize : Nat) (l : List (Nat × Nat)) : Option (Nat × Nat) :=
  match l with
  | [] => none
  | first :: rest =>
    if asize ≤ first.2 ∧ first.2 - asize < 4294967295 then
      if i ≤ 4 then some first
      else scanRest asize rest (first.2 - asize) (some first)
    else scanRest asize rest 4294967295 none

/-- The outer bin loop of `find_fit` (mm.c line 535): bins `i` to 15,
moving on when a bin yields nothing. -/
def binLoop (st : SegSt) (asize : Nat) : Nat → Nat → Option (Nat × Nat)
  | 0, _ => none
  | fuel + 1, i =>
    if h : i < 16 then
      match searchBin i asize (st.seg ⟨i, h⟩) with
      | some b => some b
      | none => binLoop st asize fuel (i + 1)
    else none

/-- `find_fit(asize)` on the list-level state: search the bins from
`get_index asize`, else the wilderness test
`asize <= size(wilderness) - MINSIZE` in 32-bit unsigned arithmetic
(mm.c line 604), else no fit. -/
def find_fit_model (st : SegSt) (asize : Nat) : FitRes :=
  match binLoop st asize 16 (MM.get_index asize) with
  | some b => FitRes.found b
  | none =>
    if asize ≤ (st.wildSize + 4294967296 - 16) % 4294967296 then FitRes.wilderness
    else FitRes.nofit

/-- Modelled from the spec: the best fit within one bin — the block of
size at least `asize` with the smallest `size - asize`, ties broken by
first encountered in traversal order. -/
def bestInBin (asize : Nat) : List (Nat × Nat) → Option (Nat × Nat)
  | [] => none
  | b :: l =>
    if asize ≤ b.2 then
      match bestInBin asize l with
      | none => some b
      | some c => if b.2 - asize ≤ c.2 - asize then some b else some c
    else bestInBin asize l

/-- Modelled from the spec: the first feasible entry of a bin. -/
def firstFeasible (asize : Nat) (l : List (Nat × Nat)) : Option (Nat × Nat) :=
  l.find? (fun b => decide (asize ≤ b.2))

/-- Modelled from the spec: what one bin yields — the first feasible entry
for the exact bins 0-4, the best fit otherwise. -/
def specBin (i asize : Nat) (l : List (Nat × Nat)) : Option (Nat × Nat) :=
  if i ≤ 4 then firstFeasible asize l else bestInBin asize l

/-- Modelled from the spec: scan the bins in order, returning the first
bin's yield. -/
def specLoop (st : SegSt) (asize : Nat) : Nat → Nat → Option (Nat × Nat)
  | 0, _ => none
  | fuel + 1, i =>
    if h : i < 16 then
      match specBin i asize (st.seg ⟨i, h⟩) with
      | some b => some b
      | none => specLoop st asize fuel (i + 1)
    else none

/-- Modelled from the spec (section 4.5): bins `bin(asize)` to 15, then
the wilderness exactly when `size(wilderness) - MINSIZE >= asize` (exact
arithmetic), else no fit. -/
def find_fit_spec (st : SegSt) (asize : Nat) : FitRes :=
  match specLoop st asize 16 (MM.get_index asize) with
  | some b => FitRes.found b
  | none =>
    if asize + 16 ≤ st.wildSize then FitRes.wilderness else FitRes.nofit

/-- The split test of `place` (mm.c line 627):
`csize - asize >= MINSIZE` in `size_t` arithmetic. -/
def place_splits (csize asize : Nat) : Bool :=
  decide (16 ≤ (csize + 18446744073709551616 - asize) % 18446744073709551616)

/-- `place` applied to the wilderness (mm.c lines 616-651), projected onto
the list-level state: on a split the remainder becomes the new wilderness
(`wilderness = bp`, no `add_free_block`); otherwise the bins and the
wilderness pointer are untouched. -/
def place_wild (st : SegSt) (asize : Nat) : SegSt :=
  if place_splits st.wildSize asize then
    { seg := st.seg, wildAddr := st.wildAddr + asize,
      wildSize := (st.wildSize + 18446744073709551616 - asize) % 18446744073709551616 }
  else st

/-- The post-`mm_init` list-level state: all bins empty, the wilderness at
address 72 with size 192. -/
def segW : SegSt := { seg := fun _ => [], wildAddr := 72, wildSize := 192 }

end MM.Seg

namespace MM.BM

/-!
A block-level model of the heap: the list of real blocks between prologue
and epilogue in address order, each carrying its size, its allocation bit
and its predecessor-allocation header bit.  The prologue and the epilogue
are allocated size-0 sentinels (I8); the wilderness is the last block of
the list (I5).  The operations below transcribe `coalesce`
(mm.c lines 462-525), `place` (616-651), `free` (803-845) and
`extend_heap` (656-677) onto this view; their effect on the segregated
lists — which never alters the block structure — is the `MM.Seg` model.
The focused block is handled as a zipper `(preR, b, post)`: `preR` the
blocks before `b` in reverse order, `post` the blocks after it.
-/

/-- One real block: size, allocation bit, predecessor-allocation bit. -/
structure Blk where
  bsize : Nat
  alloc : Bool
  palloc : Bool
deriving DecidableEq

instance : Inhabited Blk := ⟨⟨0, true, true⟩⟩

/-- The prologue sentinel: allocated (I8). -/
def proB : Blk := ⟨0, true, true⟩

/-- Invariant I3 between two adjacent blocks: not both free. -/
def Radj (a b : Blk) : Prop := ¬(a.alloc = false ∧ b.alloc = false)

/-- Invariant I4 between two adjacent blocks: the second one's
predecessor-allocation bit records the first one's allocation bit. -/
def Rpal (a b : Blk) : Prop := b.palloc = a.alloc

/-- `coalesce(bp)` (mm.c lines 462-525) on the zipper focused at the newly
freed block `b`.  The dispatch reads `prev_alloc` from `b`'s own header
bit and `next_alloc` from the next block (the epilogue, allocated, when
`post` is empty), exactly as the code does.  Case 1 only clears the footer
allocation bit (no block change here); case 2 absorbs the next block and
stamps `PALLOC`; case 3 absorbs the previous block, copying that block's
own `prev_alloc` bit `pr`; case 4 absorbs both and stamps `PALLOC`.  The
rows with empty `preR` and `prev_alloc = PFREE` are unreachable under I4
(the prologue is allocated) and return the zipper unchanged. -/
def coalesceZ (preR : List Blk) (b : Blk) (post : List Blk) :
    List Blk × Blk × List Blk :=
  match b.palloc, post, preR with
  | true, [], _ => (preR, b, [])
  | true, n :: rest, _ =>
    if n.alloc then (preR, b, n :: rest)
    else (preR, ⟨b.bsize + n.bsize, false, true⟩, rest)
  | false, post, [] => ([], b, post)
  | false, [], p :: rest => (rest, ⟨b.bsize + p.bsize, false, p.palloc⟩, [])
  | false, n :: rest2, p :: rest =>
    if n.alloc then (rest, ⟨b.bsize + p.bsize, false, p.palloc⟩, n :: rest2)
    else (rest, ⟨b.bsize + p.bsize + n.bsize, false, true⟩, rest2)

/-- Flatten a zipper back to the block list. -/
def toListZ (z : List Blk × Blk × List Blk) : List Blk :=
  z.1.reverse ++ z.2.1 :: z.2.2

/-- Set the predecessor-allocation bit of the first block of a list
(`set_palloc(hdrp(next_blkp(...)), v)`); on an empty list the write goes
to the epilogue header, outside this model. -/
def setPallocHead (v : Bool) : List Blk → List Blk
  | [] => []
  | n :: r => ⟨n.bsize, n.alloc, v⟩ :: r

/-- `free(ptr)` (mm.c lines 803-845) at block level: clear the allocation
bit (the header keeps its `pr` bit), clear the successor's
predecessor-allocation bit, coalesce; when the freed block sat directly
before the wilderness (the last block, I5, whose palloc bit was just
cleared) the result becomes the wilderness, otherwise it is pushed onto
its free list (an `MM.Seg` effect) and the successor's bit cleared
again. -/
def freeZ (preR : List Blk) (b : Blk) (post : List Blk) : List Blk :=
  let b1 : Blk := ⟨b.bsize, false, b.palloc⟩
  let post1 := setPallocHead false post
  let flag := match post1 with | [_] => true | _ => false
  let z := coalesceZ preR b1 post1
  if flag then toListZ z
  else z.1.reverse ++ z.2.1 :: setPallocHead false z.2.2

/-- `place(bp, asize)` (mm.c lines 616-651) at block level: when the
remainder can hold a block (`csize - asize >= MINSIZE` in `size_t`
arithmetic), the low part becomes allocated (`PALLOC` stamped), the
remainder a free block with `prev_alloc = PALLOC` whose successor's bit is
cleared; otherwise the whole block is allocated and the successor's bit
set.  Whether the remainder becomes the wilderness or a free-list entry is
an `MM.Seg` effect. -/
def placeZ (preR : List Blk) (b : Blk) (post : List Blk) (asize : Nat) :
    List Blk :=
  if 16 ≤ (b.bsize + 18446744073709551616 - asize) % 18446744073709551616 then
    preR.reverse ++ (⟨asize, true, true⟩ : Blk) ::
      (⟨(b.bsize + 18446744073709551616 - asize) % 18446744073709551616,
        false, true⟩ : Blk) :: setPallocHead false post
  else
    preR.reverse ++ (⟨b.bsize, true, true⟩ : Blk) :: setPallocHead true post

/-- `extend_heap` (mm.c lines 656-677) at block level: append a free block
whose predecessor-allocation bit copies the wilderness's allocation bit
(`PALLOC * a`), then coalesce it with its predecessor. -/
def extendZ (l : List Blk) (ext : Nat) : List Blk × Blk × List Blk :=
  coalesceZ l.reverse
    ⟨ext, false, match l.getLast? with | some x => x.alloc | none => true⟩ []

/-- Focus the block list at index `k`. -/
def zipAt (l : List Blk) (k : Nat) : List Blk × Blk × List Blk :=
  ((l.take k).reverse, l.getD k default, l.drop (k + 1))

/-- `place` at index `k`. -/
def placeAt (l : List Blk) (k asize : Nat) : List Blk :=
  placeZ (l.take k).reverse (l.getD k default) (l.drop (k + 1)) asize

/-- `free` of the block at index `k`. -/
def freeAt (l : List Blk) (k : Nat) : List Blk :=
  freeZ (l.take k).reverse (l.getD k default) (l.drop (k + 1))

/-- `malloc` at block level, the chosen fit and the extension outcome
passed as oracles: place at the block `find_fit` returned, or place at the
block `extend_heap` produced, or fail leaving the heap unchanged. -/
def mallocAt (l : List Blk) (fit : Option Nat) (ext : Option Nat)
    (asize : Nat) : List Blk :=
  match fit with
  | some k => placeAt l k asize
  | none =>
    match ext with
    | some e => placeZ (extendZ l e).1 (extendZ l e).2.1 (extendZ l e).2.2 asize
    | none => l

/-- Whether the modelled `malloc` succeeded. -/
def mallocOk (fit ext : Option Nat) : Bool := fit.isSome || ext.isSome

/-- `realloc` at block level (allocate-copy-free path): `malloc`, then
`free` of the old block, at index `j` in the post-`malloc` list; a failed
`malloc` leaves the heap unchanged.  The `size = 0` path is `freeAt` and
the null-pointer path is `mallocAt`, both covered separately. -/
def reallocAt (l : List Blk) (fit ext : Option Nat) (asize j : Nat) :
    List Blk :=
  if mallocOk fit ext then freeAt (mallocAt l fit ext asize) j else l

/-- `calloc` at block level: `malloc`; the `memset` writes payload bytes
only and does not change the block structure. -/
def callocAt (l : List Blk) (fit ext : Option Nat) (asize : Nat) : List Blk :=
  mallocAt l fit ext asize

/-- Invariant I3 over the block list: no two adjacent blocks both free. -/
def noAdjFree (l : List Blk) : Prop := List.Chain' Radj l

/-- The invariants this model tracks: I3, and I4 including the link from
the allocated prologue to the first block. -/
def Inv (l : List Blk) : Prop :=
  List.Chain' Radj l ∧ List.Chain' Rpal (proB :: l)

/-- What `find_fit` guarantees about the block `malloc` places at: a valid
index holding a free block (the bins hold free blocks, I6, and the
wilderness is free, I5). -/
def mallocPre (l : List Blk) (fit : Option Nat) : Prop :=
  match fit with
  | some k => k < l.length ∧ (l.getD k default).alloc = false
  | none => True

/-- The zipper-side reading of a `Chain'` over the flattened zipper. -/
def ZOk (R : Blk → Blk → Prop) (preR : List Blk) (b : Blk)
    (post : List Blk) : Prop :=
  List.Chain' (flip R) preR ∧ (∀ x ∈ preR.head?, R x b) ∧
    (∀ y ∈ post.head?, R b y) ∧ List.Chain' R post

/-- A small invariant-satisfying heap: one allocated block, then the free
wilderness. -/
def heapW : List Blk := [⟨48, true, true⟩, ⟨144, false, true⟩]

instance : DecidableRel Radj :=
  fun a b => inferInstanceAs (Decidable ¬(a.alloc = false ∧ b.alloc = false))

instance : DecidableRel Rpal :=
  fun a b => inferInstanceAs (Decidable (b.palloc = a.alloc))

instance : DecidableRel (flip Radj) :=
  fun a b => inferInstanceAs (Decidable (Radj b a))

instance : DecidableRel (flip Rpal) :=
  fun a b => inferInstanceAs (Decidable (Rpal b a))

instance (priority := 2000) decChainBlk (R : Blk → Blk → Prop)
    [DecidableRel R] : (l : List Blk) → Decidable (List.Chain' R l)
  | [] => isTrue List.chain'_nil
  | [a] => isTrue (List.chain'_singleton a)
  | a :: b :: l2 =>
    have : Decidable (List.Chain' R (b :: l2)) := decChainBlk R (b :: l2)
    decidable_of_iff (R a b ∧ List.Chain' R (b :: l2)) List.chain'_cons.symm

instance (l : List Blk) : Decidable (noAdjFree l) :=
  inferInstanceAs (Decidable (List.Chain' Radj l))

instance (l : List Blk) : Decidable (Inv l) :=
  inferInstanceAs (Decidable (List.Chain' Radj l ∧ List.Chain' Rpal (proB :: l)))

instance (l : List Blk) : (fit : Option Nat) → Decidable (mallocPre l fit)
  | some k =>
    inferInstanceAs (Decidable (k < l.length ∧ (l.getD k default).alloc = false))
  | none => inferInstanceAs (Decidable True)

end MM.BM

namespace MM

/-! ## Theorems -/

/-- Claim C1.  On the large path `allocate` does return `block_start + 8`
(here the block placed at 72 with the large bit set in its header at 70 and
adjusted size 65552), but the recovery `free` performs — reading the large
bit at `ptr - 2` — lands at `block_start + 6`, inside the extended 32-bit
size word, whose bit 18 is 0 for this size; `free` therefore keeps `ptr`
itself as the block start and does not recover the block `allocate` placed,
contradicting the claim's conclusion. -/
theorem c1_free_large_recovery_bug :
    large_run.1 = some (72 + 8) ∧
    get_large large_run.2.mem (hdrp 72) = 1 ∧
    get_alloc large_run.2.mem (hdrp 72) = 1 ∧
    geth_size large_run.2.mem 72 = asizeF 65529 ∧
    free_block_start large_run.2.mem (72 + 8) = 72 + 8 ∧
    free_block_start large_run.2.mem (72 + 8) ≠ 72 := by
  decide

/-- Claim C2, counterexample.  `allocate(65528)` does not use the small
encoding: its adjusted size `((65528+1)/8)*8 + 8 = 65536` already crosses
the large threshold, gaining the 16 extra bytes. -/
theorem c2_counterexample :
    isLargeReq 65528 = true ∧ asize1 65528 = 65536 ∧
    asizeF 65528 = asize1 65528 + 16 := by
  decide

/-- Claim C2, amended.  `allocate(65526)` uses the small encoding and
`allocate(65527)` is the first request size that crosses into the large
encoding, its adjusted size gaining the extra 16 bytes; for every size up
to 65526 the adjusted size stays below 65536. -/
theorem c2_small_large_boundary :
    (∀ size : Nat, size ≤ 65526 → asize1 size < 65536) ∧
    isLargeReq 65526 = false ∧ isLargeReq 65527 = true ∧
    asizeF 65527 = asize1 65527 + 16 ∧ asizeF 65527 = 65552 := by
  refine ⟨?_, by decide, by decide, by decide, by decide⟩
  intro size h
  unfold asize1 asize0
  split <;> omega

/-- Witness for the universally quantified part of the C2 theorem. -/
theorem c2_small_large_boundary_witness :
    65526 ≤ 65526 ∧ asize1 65526 < 65536 :=
  ⟨by decide, c2_small_large_boundary.1 65526 (by decide)⟩

/-- Claim C8.  `zeroed_allocate` computes its byte count as
`nmemb * size` wrapped modulo `2 ^ 64`: at `nmemb = 2 ^ 32`,
`size = 2 ^ 32 + 1` the mathematical product exceeds the word range and
the requested byte count — and with it the adjusted block size — is far
smaller than the product. -/
theorem c8_calloc_mul_wraps :
    callocBytes 4294967296 4294967297 = 4294967296 ∧
    4294967296 < 4294967296 * 4294967297 ∧
    asizeF (callocBytes 4294967296 4294967297) < 4294967296 * 4294967297 := by
  decide

/-- Claim C9.  `calloc` passes the result of `malloc` to `memset` with no
null check: whenever `malloc` returns null, the zeroing write goes through
the null pointer (undefined behaviour, modelled as the fault `none`)
instead of the call cleanly returning null. -/
theorem c9_calloc_memsets_null (st : St) (nmemb size : Nat)
    (h : (malloc st (callocBytes nmemb size)).1 = none) :
    calloc st nmemb size = none := by
  have h2 : malloc st (callocBytes nmemb size) =
      (none, (malloc st (callocBytes nmemb size)).2) := by
    cases hm : malloc st (callocBytes nmemb size)
    rw [hm] at h
    simp_all
  show calloc st nmemb size = none
  unfold calloc
  rw [h2]
  rfl

/-- Witness for C9: `zeroed_allocate(0, 5)` makes the inner `allocate`
return null and faults. -/
theorem c9_calloc_memsets_null_witness :
    (malloc st_init_small (callocBytes 0 5)).1 = none ∧
    calloc st_init_small 0 5 = none :=
  ⟨by decide, c9_calloc_memsets_null st_init_small 0 5 (by decide)⟩

/-- Helper: `mem_sbrk` fails when the host budget is exceeded. -/
theorem mem_sbrk_none (st : St) (s : Nat) (h : st.hostMax < st.brk + s) :
    mem_sbrk st s = none := by
  unfold mem_sbrk
  rw [if_neg (by omega)]

/-- Helper: `extend_heap` fails (before touching anything) exactly when
`mem_sbrk` fails. -/
theorem extend_heap_none (st : St) (w : Nat)
    (h : mem_sbrk st (extend_bytes w) = none) :
    extend_heap st w = none := by
  unfold extend_heap
  rw [h]

/-- Helper: when the bin search finds nothing and the wilderness test
fails, `find_fit` returns null with the state unchanged. -/
theorem find_fit_none (st : St) (asize : Nat)
    (h1 : bin_search st asize = none)
    (h2 : wild_fit st asize = false) :
    find_fit st asize = (none, st) := by
  unfold find_fit
  rw [h1, h2]
  rfl

/-- Helper: dispatching a failed extension gives null and the unchanged
state. -/
theorem malloc_grow_step_none (st1 : St) (asize off : Nat) :
    malloc_grow_step st1 asize off none = (none, st1) :=
  rfl

/-- Helper: the no-fit path of `malloc` returns null with the state
unchanged when the extension fails. -/
theorem malloc_grow_none (st : St) (asize off : Nat)
    (h : extend_heap st (malloc_extend_words st asize) = none) :
    malloc_grow st asize off = (none, st) := by
  unfold malloc_grow
  rw [h]
  exact malloc_grow_step_none st asize off

/-- Helper: dispatching a failed fit hands over to the grow path. -/
theorem malloc_fit_grow (asize off : Nat) (st1 : St) :
    malloc_fit asize off (none, st1) = malloc_grow st1 asize off :=
  rfl

/-- Helper for C6: when the free lists and the wilderness yield no fit and
the host refuses the requested extension, `malloc` returns null with the
state unchanged. -/
theorem malloc_oom (st : St) (size : Nat) (h0 : size ≠ 0)
    (h1 : bin_search st (asizeF size) = none)
    (h2 : wild_fit st (asizeF size) = false)
    (h3 : st.hostMax <
      st.brk + extend_bytes (malloc_extend_words st (asizeF size))) :
    malloc st size = (none, st) := by
  have hff := find_fit_none st (asizeF size) h1 h2
  have hext := extend_heap_none st (malloc_extend_words st (asizeF size))
    (mem_sbrk_none st (extend_bytes (malloc_extend_words st (asizeF size))) h3)
  unfold malloc
  rw [if_neg h0]
  by_cases hL : 65536 ≤ asize1 size
  · have ha : asize1 size + 16 = asizeF size := by
      unfold asizeF
      rw [if_pos hL]
    rw [if_pos hL, ha, hff, malloc_fit_grow]
    exact malloc_grow_none st (asizeF size) 8 hext
  · have ha : asize1 size = asizeF size := by
      unfold asizeF
      rw [if_neg hL]
    rw [if_neg hL, ha, hff, malloc_fit_grow]
    exact malloc_grow_none st (asizeF size) 0 hext

/-- Helper: dispatching a failed `malloc` inside `realloc` propagates null
and the unchanged state. -/
theorem realloc_move_none (old size : Nat) (st1 : St) :
    realloc_move old size (none, st1) = (none, st1) :=
  rfl

/-- Claim C6.  When `reallocate(ptr, size)` with non-null `ptr` and
non-zero `size` hits out-of-memory (no fit anywhere and the host refuses
the extension), it returns null and the whole heap state — in particular
the old allocation and its payload bytes — is exactly as before the call. -/
theorem c6_realloc_oom_untouched (st : St) (p size : Nat) (h0 : size ≠ 0)
    (h1 : bin_search st (asizeF size) = none)
    (h2 : wild_fit st (asizeF size) = false)
    (h3 : st.hostMax <
      st.brk + extend_bytes (malloc_extend_words st (asizeF size))) :
    realloc st (some p) size = (none, st) := by
  unfold realloc
  rw [if_neg h0]
  rw [malloc_oom st size h0 h1 h2 h3]
  exact realloc_move_none p size st

/-- Witness for C6: on the freshly initialised heap whose host budget is
already exhausted, `reallocate(72, 1000)` fails and leaves the state
untouched. -/
theorem c6_realloc_oom_untouched_witness :
    bin_search st_init_small (asizeF 1000) = none ∧
    wild_fit st_init_small (asizeF 1000) = false ∧
    realloc st_init_small (some 72) 1000 = (none, st_init_small) :=
  ⟨by decide, by decide,
    c6_realloc_oom_untouched st_init_small 72 1000 (by decide) (by decide)
      (by decide) (by decide)⟩

/-- Claim C7.  Starting from the freshly initialised heap,
`free(allocate(40))` restores the observable heap state exactly: the same
single-free-block topology between prologue and epilogue, the same header
and footer contents, the same wilderness, and all segregated lists empty. -/
theorem c7_alloc_free_roundtrip :
    observe (free (malloc st_init_small 40).2 (malloc st_init_small 40).1) =
      observe st_init_small ∧
    (malloc st_init_small 40).1 = some 72 := by
  decide

end MM

namespace MM.Seg

/-- Helper: an infeasible head is skipped by the best-fit scan. -/
theorem bestInBin_cons_neg (asize : Nat) (a : Nat × Nat) (l : List (Nat × Nat))
    (ha : ¬ asize ≤ a.2) : bestInBin asize (a :: l) = bestInBin asize l := by
  simp only [bestInBin, if_neg ha]

/-- Helper: unfolding `bestInBin` at a feasible head, empty tail result. -/
theorem bestInBin_cons_pos_none (asize : Nat) (a : Nat × Nat) (l : List (Nat × Nat))
    (ha : asize ≤ a.2) (h : bestInBin asize l = none) :
    bestInBin asize (a :: l) = some a := by
  simp only [bestInBin, if_pos ha, h]

/-- Helper: unfolding `bestInBin` at a feasible head, nonempty tail
result. -/
theorem bestInBin_cons_pos_some (asize : Nat) (a c : Nat × Nat) (l : List (Nat × Nat))
    (ha : asize ≤ a.2) (h : bestInBin asize l = some c) :
    bestInBin asize (a :: l) =
      if a.2 - asize ≤ c.2 - asize then some a else some c := by
  simp only [bestInBin, if_pos ha, h]

/-- Helper: a list with a feasible head has a best fit, at most as loose as
the head. -/
theorem bestInBin_cons_feasible (asize : Nat) (b : Nat × Nat) (l : List (Nat × Nat))
    (hb : asize ≤ b.2) :
    ∃ c, bestInBin asize (b :: l) = some c ∧ c.2 - asize ≤ b.2 - asize := by
  cases hm : bestInBin asize l with
  | none => exact ⟨b, bestInBin_cons_pos_none asize b l hb hm, Nat.le_refl _⟩
  | some c =>
    rw [bestInBin_cons_pos_some asize b c l hb hm]
    by_cases hbc : b.2 - asize ≤ c.2 - asize
    · rw [if_pos hbc]
      exact ⟨b, rfl, Nat.le_refl _⟩
    · rw [if_neg hbc]
      exact ⟨c, rfl, by omega⟩

/-- Helper: a later block that does not strictly improve on an earlier
feasible block never changes the best fit (ties keep the first). -/
theorem bestInBin_cons_skip (asize : Nat) (a b : Nat × Nat) (l : List (Nat × Nat))
    (ha : asize ≤ a.2) (hb : ¬(asize ≤ b.2 ∧ b.2 - asize < a.2 - asize)) :
    bestInBin asize (a :: b :: l) = bestInBin asize (a :: l) := by
  by_cases hbf : asize ≤ b.2
  · have hd : a.2 - asize ≤ b.2 - asize := by omega
    cases hm : bestInBin asize l with
    | none =>
      rw [bestInBin_cons_pos_some asize a b (b :: l) ha
        (bestInBin_cons_pos_none asize b l hbf hm)]
      rw [bestInBin_cons_pos_none asize a l ha hm]
      rw [if_pos hd]
    | some c =>
      by_cases hbc : b.2 - asize ≤ c.2 - asize
      · have hbEq : bestInBin asize (b :: l) = some b := by
          rw [bestInBin_cons_pos_some asize b c l hbf hm]
          rw [if_pos hbc]
        rw [bestInBin_cons_pos_some asize a b (b :: l) ha hbEq]
        rw [bestInBin_cons_pos_some asize a c l ha hm]
        rw [if_pos hd, if_pos (Nat.le_trans hd hbc)]
      · have hcEq : bestInBin asize (b :: l) = some c := by
          rw [bestInBin_cons_pos_some asize b c l hbf hm]
          rw [if_neg hbc]
        rw [bestInBin_cons_pos_some asize a c (b :: l) ha hcEq]
        rw [bestInBin_cons_pos_some asize a c l ha hm]
  · have hskip : bestInBin asize (b :: l) = bestInBin asize l :=
      bestInBin_cons_neg asize b l hbf
    cases hm : bestInBin asize l with
    | none =>
      rw [bestInBin_cons_pos_none asize a (b :: l) ha (hskip.trans hm)]
      rw [bestInBin_cons_pos_none asize a l ha hm]
    | some c =>
      rw [bestInBin_cons_pos_some asize a c (b :: l) ha (hskip.trans hm)]
      rw [bestInBin_cons_pos_some asize a c l ha hm]

/-- Helper: one improving step of the inner walk. -/
theorem scanRest_cons_pos (asize : Nat) (b : Nat × Nat) (rest : List (Nat × Nat))
    (mn : Nat) (acc : Option (Nat × Nat)) (h : asize ≤ b.2 ∧ b.2 - asize < mn) :
    scanRest asize (b :: rest) mn acc = scanRest asize rest (b.2 - asize) (some b) := by
  simp only [scanRest, if_pos h]

/-- Helper: one non-improving step of the inner walk. -/
theorem scanRest_cons_neg (asize : Nat) (b : Nat × Nat) (rest : List (Nat × Nat))
    (mn : Nat) (acc : Option (Nat × Nat)) (h : ¬(asize ≤ b.2 ∧ b.2 - asize < mn)) :
    scanRest asize (b :: rest) mn acc = scanRest asize rest mn acc := by
  simp only [scanRest, if_neg h]

/-- Helper: seeded with a feasible candidate, the walk computes the best
fit of the candidate followed by the rest. -/
theorem scanRest_eq (asize : Nat) :
    ∀ (l : List (Nat × Nat)) (a : Nat × Nat), asize ≤ a.2 →
      scanRest asize l (a.2 - asize) (some a) = bestInBin asize (a :: l) := by
  intro l
  induction l with
  | nil =>
    intro a ha
    rw [bestInBin_cons_pos_none asize a [] ha rfl]
    rfl
  | cons b rest ih =>
    intro a ha
    by_cases hc : asize ≤ b.2 ∧ b.2 - asize < a.2 - asize
    · rw [scanRest_cons_pos asize b rest _ _ hc]
      rw [ih b hc.1]
      obtain ⟨c, hcEq, hcLe⟩ := bestInBin_cons_feasible asize b rest hc.1
      rw [hcEq]
      rw [bestInBin_cons_pos_some asize a c (b :: rest) ha hcEq]
      rw [if_neg (by omega : ¬ a.2 - asize ≤ c.2 - asize)]
    · rw [scanRest_cons_neg asize b rest _ _ hc]
      rw [ih a ha]
      exact (bestInBin_cons_skip asize a b rest ha hc).symm

/-- Helper: with no feasible block the walk keeps its accumulator. -/
theorem scanRest_infeasible (asize : Nat) :
    ∀ (l : List (Nat × Nat)) (mn : Nat) (acc : Option (Nat × Nat)),
      (∀ b ∈ l, ¬ asize ≤ b.2) → scanRest asize l mn acc = acc := by
  intro l
  induction l with
  | nil => intro mn acc _; rfl
  | cons b rest ih =>
    intro mn acc hl
    have hb : ¬ asize ≤ b.2 := hl b (List.mem_cons_self b rest)
    rw [scanRest_cons_neg asize b rest mn acc (by simp [hb])]
    exact ih mn acc fun c hc => hl c (List.mem_cons_of_mem b hc)

/-- Helper: seeded with the sentinel `~0`, the walk computes the best fit
(block sizes fit in 31 bits, so the first feasible diff is already below
the sentinel). -/
theorem scanRest_sentinel (asize : Nat) :
    ∀ (l : List (Nat × Nat)), (∀ b ∈ l, b.2 < 2147483648) →
      scanRest asize l 4294967295 none = bestInBin asize l := by
  intro l
  induction l with
  | nil => intro _; rfl
  | cons b rest ih =>
    intro hl
    by_cases hbf : asize ≤ b.2
    · have hsm : b.2 - asize < 4294967295 := by
        have := hl b (List.mem_cons_self b rest)
        omega
      rw [scanRest_cons_pos asize b rest _ _ ⟨hbf, hsm⟩]
      exact scanRest_eq asize rest b hbf
    · rw [scanRest_cons_neg asize b rest _ _ (by simp [hbf])]
      rw [ih fun c hc => hl c (List.mem_cons_of_mem b hc)]
      exact (bestInBin_cons_neg asize b rest hbf).symm

/-- Helper: a feasible root in an exact bin returns immediately. -/
theorem searchBin_cons_head_exact (i asize : Nat) (first : Nat × Nat)
    (rest : List (Nat × Nat)) (h : asize ≤ first.2 ∧ first.2 - asize < 4294967295)
    (hi : i ≤ 4) : searchBin i asize (first :: rest) = some first := by
  simp only [searchBin, if_pos h, if_pos hi]

/-- Helper: a feasible root in a coarse bin seeds the walk. -/
theorem searchBin_cons_head_scan (i asize : Nat) (first : Nat × Nat)
    (rest : List (Nat × Nat)) (h : asize ≤ first.2 ∧ first.2 - asize < 4294967295)
    (hi : ¬ i ≤ 4) :
    searchBin i asize (first :: rest) =
      scanRest asize rest (first.2 - asize) (some first) := by
  simp only [searchBin, if_pos h, if_neg hi]

/-- Helper: an infeasible root leaves the sentinel seed. -/
theorem searchBin_cons_nohead (i asize : Nat) (first : Nat × Nat)
    (rest : List (Nat × Nat)) (h : ¬(asize ≤ first.2 ∧ first.2 - asize < 4294967295)) :
    searchBin i asize (first :: rest) = scanRest asize rest 4294967295 none := by
  simp only [searchBin, if_neg h]

/-- Helper: in bins above 4 the search is exactly the best fit. -/
theorem searchBin_eq_best (i asize : Nat) (l : List (Nat × Nat)) (hi : 4 < i)
    (hl : ∀ b ∈ l, b.2 < 2147483648) :
    searchBin i asize l = bestInBin asize l := by
  cases l with
  | nil => rfl
  | cons first rest =>
    by_cases hf : asize ≤ first.2
    · have hsm : first.2 - asize < 4294967295 := by
        have := hl first (List.mem_cons_self first rest)
        omega
      rw [searchBin_cons_head_scan i asize first rest ⟨hf, hsm⟩ (by omega)]
      exact scanRest_eq asize rest first hf
    · rw [searchBin_cons_nohead i asize first rest (by simp [hf])]
      rw [scanRest_sentinel asize rest fun c hc => hl c (List.mem_cons_of_mem first hc)]
      exact (bestInBin_cons_neg asize first rest hf).symm

/-- Helper: in the exact bins 0-4 (all blocks of size `8 i + 16`, by I6 and
I1) the search is exactly the first feasible entry. -/
theorem searchBin_exact (i asize : Nat) (l : List (Nat × Nat)) (hi : i ≤ 4)
    (hl : ∀ b ∈ l, b.2 = 8 * i + 16) :
    searchBin i asize l = firstFeasible asize l := by
  cases l with
  | nil => rfl
  | cons first rest =>
    have hf1 : first.2 = 8 * i + 16 := hl first (List.mem_cons_self first rest)
    by_cases hf : asize ≤ first.2
    · have hsm : first.2 - asize < 4294967295 := by omega
      rw [searchBin_cons_head_exact i asize first rest ⟨hf, hsm⟩ hi]
      unfold firstFeasible
      rw [List.find?_cons_of_pos _ (by simp [hf])]
    · have hnone : ∀ b ∈ rest, ¬ asize ≤ b.2 := by
        intro b hbm
        rw [hl b (List.mem_cons_of_mem first hbm)]
        omega
      rw [searchBin_cons_nohead i asize first rest (by simp [hf])]
      rw [scanRest_infeasible asize rest 4294967295 none hnone]
      unfold firstFeasible
      rw [List.find?_cons_of_neg _ (by simp [hf])]
      rw [List.find?_eq_none.mpr]
      intro b hbm
      simp [hnone b hbm]

/-- Helper: the bin loop agrees with the spec loop bin by bin. -/
theorem binLoop_eq_spec (st : SegSt) (asize : Nat)
    (h1 : ∀ (i : Fin 16), ∀ b ∈ st.seg i, b.2 < 2147483648)
    (h2 : ∀ (i : Fin 16), i.val ≤ 4 → ∀ b ∈ st.seg i, b.2 = 8 * i.val + 16) :
    ∀ fuel i, binLoop st asize fuel i = specLoop st asize fuel i := by
  intro fuel
  induction fuel with
  | zero => intro i; rfl
  | succ n ih =>
    intro i
    simp only [binLoop, specLoop]
    by_cases h : i < 16
    · rw [dif_pos h, dif_pos h]
      have hsb : searchBin i asize (st.seg ⟨i, h⟩) = specBin i asize (st.seg ⟨i, h⟩) := by
        unfold specBin
        by_cases hi : i ≤ 4
        · rw [if_pos hi]
          exact searchBin_exact i asize _ hi (h2 ⟨i, h⟩ hi)
        · rw [if_neg hi]
          exact searchBin_eq_best i asize _ (by omega) (h1 ⟨i, h⟩)
      rw [hsb]
      cases specBin i asize (st.seg ⟨i, h⟩) <;> simp [ih]
    · rw [dif_neg h, dif_neg h]

/-- Claim C3.  Under the heap invariants (block sizes fit in 31 bits by I1
and the address-space bound, the exact bins 0-4 hold only blocks of their
bin size by I6/I1, and the wilderness has a legal size by I1), `find_fit`
returns exactly what the specification prescribes: the best fit — first
encountered on ties — from the first bin in `bin(asize)..15` holding a
feasible block, with the first feasible entry in bins 0-4; otherwise the
wilderness exactly when `size(wilderness) - MINSIZE >= asize`, and null
otherwise. -/
theorem c3_find_fit_matches_spec (st : SegSt) (asize : Nat)
    (h1 : ∀ (i : Fin 16), ∀ b ∈ st.seg i, b.2 < 2147483648)
    (h2 : ∀ (i : Fin 16), i.val ≤ 4 → ∀ b ∈ st.seg i, b.2 = 8 * i.val + 16)
    (h3 : 16 ≤ st.wildSize) (h4 : st.wildSize < 2147483648) :
    find_fit_model st asize = find_fit_spec st asize := by
  unfold find_fit_model find_fit_spec
  rw [binLoop_eq_spec st asize h1 h2 16 (MM.get_index asize)]
  cases specLoop st asize 16 (MM.get_index asize) with
  | some b => rfl
  | none =>
    have hm : (st.wildSize + 4294967296 - 16) % 4294967296 = st.wildSize - 16 := by
      omega
    rw [hm]
    by_cases hc : asize + 16 ≤ st.wildSize
    · rw [if_pos (by omega : asize ≤ st.wildSize - 16), if_pos hc]
    · rw [if_neg (by omega : ¬ asize ≤ st.wildSize - 16), if_neg hc]

/-- Witness for C3 on the post-`mm_init` state. -/
theorem c3_find_fit_matches_spec_witness :
    16 ≤ segW.wildSize ∧ find_fit_model segW 48 = find_fit_spec segW 48 :=
  ⟨by decide, c3_find_fit_matches_spec segW 48 (by decide) (by decide) (by decide)
    (by decide)⟩

/-- Claim C10.  When `find_fit` returns the wilderness for adjusted size
`asize` (under the invariants: legal wilderness size, sizes below `2^31`,
adjusted sizes at least `MINSIZE`, and every free-list entry below the
wilderness address), `size(wilderness) - asize >= MINSIZE` holds, so
`place` on the wilderness takes the split branch — the whole-block branch
is unreachable — and afterwards the wilderness is the free remainder of
size at least `MINSIZE`, the segregated lists are unchanged and do not
contain the new wilderness. -/
theorem c10_wilderness_always_splits (st : SegSt) (asize : Nat)
    (hw : find_fit_model st asize = FitRes.wilderness)
    (hmin : 16 ≤ st.wildSize) (hbound : st.wildSize < 2147483648)
    (hasz : 16 ≤ asize)
    (haddr : ∀ (i : Fin 16), ∀ b ∈ st.seg i, b.1 < st.wildAddr) :
    16 ≤ st.wildSize - asize ∧
    place_splits st.wildSize asize = true ∧
    (place_wild st asize).wildSize = st.wildSize - asize ∧
    16 ≤ (place_wild st asize).wildSize ∧
    (place_wild st asize).seg = st.seg ∧
    (∀ (i : Fin 16), ∀ b ∈ (place_wild st asize).seg i,
      b.1 ≠ (place_wild st asize).wildAddr) := by
  have hcond : asize ≤ (st.wildSize + 4294967296 - 16) % 4294967296 := by
    unfold find_fit_model at hw
    cases hb : binLoop st asize 16 (MM.get_index asize) with
    | some b =>
      rw [hb] at hw
      exact absurd hw (by simp)
    | none =>
      rw [hb] at hw
      by_cases hc : asize ≤ (st.wildSize + 4294967296 - 16) % 4294967296
      · exact hc
      · rw [if_neg hc] at hw
        exact absurd hw (by simp)
  have hle : asize + 16 ≤ st.wildSize := by omega
  have hsplit : place_splits st.wildSize asize = true := by
    unfold place_splits
    simp only [decide_eq_true_eq]
    omega
  have hpw : place_wild st asize =
      { seg := st.seg, wildAddr := st.wildAddr + asize,
        wildSize :=
          (st.wildSize + 18446744073709551616 - asize) % 18446744073709551616 } := by
    unfold place_wild
    rw [hsplit]
    rfl
  have hmod : (st.wildSize + 18446744073709551616 - asize) % 18446744073709551616 =
      st.wildSize - asize := by omega
  refine ⟨by omega, hsplit, ?_, ?_, ?_, ?_⟩
  · rw [hpw]
    exact hmod
  · rw [hpw]
    show 16 ≤ (st.wildSize + 18446744073709551616 - asize) % 18446744073709551616
    omega
  · rw [hpw]
  · intro i b hbm
    rw [hpw] at hbm
    have hb1 : b.1 < st.wildAddr := haddr i b hbm
    rw [hpw]
    show b.1 ≠ st.wildAddr + asize
    omega

/-- Witness for C10 on the post-`mm_init` state, request of adjusted size
48. -/
theorem c10_wilderness_always_splits_witness :
    find_fit_model segW 48 = FitRes.wilderness ∧
    (16 ≤ segW.wildSize - 48 ∧
      place_splits segW.wildSize 48 = true ∧
      (place_wild segW 48).wildSize = segW.wildSize - 48 ∧
      16 ≤ (place_wild segW 48).wildSize ∧
      (place_wild segW 48).seg = segW.seg ∧
      (∀ (i : Fin 16), ∀ b ∈ (place_wild segW 48).seg i,
        b.1 ≠ (place_wild segW 48).wildAddr)) :=
  ⟨by decide, c10_wilderness_always_splits segW 48 (by decide) (by decide)
    (by decide) (by decide) (by decide)⟩

end MM.Seg

namespace MM.BM

/-- Prepending the prologue to a flattened zipper pushes it into the
reversed prefix. -/
theorem pro_toListZ (preR : List Blk) (b : Blk) (post : List Blk) :
    proB :: toListZ (preR, b, post) = toListZ (preR ++ [proB], b, post) := by
  unfold toListZ
  simp

/-- A chain over a flattened zipper, read component by component. -/
theorem chain_toListZ (R : Blk → Blk → Prop) (preR : List Blk) (b : Blk)
    (post : List Blk) :
    List.Chain' R (toListZ (preR, b, post)) ↔ ZOk R preR b post := by
  unfold toListZ ZOk
  rw [List.chain'_append, List.chain'_reverse, List.chain'_cons',
    List.getLast?_reverse]
  simp only [List.head?_cons, Option.mem_def, Option.some.injEq]
  constructor
  · rintro ⟨h1, ⟨h2, h3⟩, h4⟩
    exact ⟨h1, fun x hx => h4 x hx b rfl, h2, h3⟩
  · rintro ⟨h1, h2, h3, h4⟩
    exact ⟨h1, ⟨h3, h4⟩, fun x hx y hy => hy ▸ h2 x hx⟩

/-- The invariants of a flattened zipper, read component by component. -/
theorem inv_zip_iff (preR : List Blk) (b : Blk) (post : List Blk) :
    Inv (toListZ (preR, b, post)) ↔
      ZOk Radj preR b post ∧ ZOk Rpal (preR ++ [proB]) b post := by
  unfold Inv
  rw [pro_toListZ, chain_toListZ, chain_toListZ]

/-- `setPallocHead` preserves any chain whose links ignore the head's
predecessor-allocation bit. -/
theorem spl_chain (R : Blk → Blk → Prop)
    (hR : ∀ (a y : Blk) (v : Bool), R a y → R ⟨a.bsize, a.alloc, v⟩ y)
    (v : Bool) (l : List Blk) (h : List.Chain' R l) :
    List.Chain' R (setPallocHead v l) := by
  cases l with
  | nil => exact h
  | cons n r =>
    rw [List.chain'_cons'] at h
    exact List.chain'_cons'.mpr ⟨fun y hy => hR n y v (h.1 y hy), h.2⟩

/-- After `setPallocHead v`, the head is in `Rpal` with any block whose
allocation bit is `v`. -/
theorem spl_head_rpal (v : Bool) (l : List Blk) (m : Blk)
    (hm : m.alloc = v) : ∀ y ∈ (setPallocHead v l).head?, Rpal m y := by
  cases l with
  | nil => intro y hy; simp [setPallocHead] at hy
  | cons n r =>
    intro y hy
    have hyn : y = ⟨n.bsize, n.alloc, v⟩ := by
      simpa [setPallocHead] using hy.symm
    subst hyn
    unfold Rpal
    exact hm.symm

/-- `setPallocHead` preserves an adjacency link into the head. -/
theorem spl_head_radj (v : Bool) (l : List Blk) (m : Blk)
    (h : ∀ y ∈ l.head?, Radj m y) :
    ∀ y ∈ (setPallocHead v l).head?, Radj m y := by
  cases l with
  | nil => intro y hy; simp [setPallocHead] at hy
  | cons n r =>
    intro y hy
    have hyn : y = ⟨n.bsize, n.alloc, v⟩ := by
      simpa [setPallocHead] using hy.symm
    subst hyn
    have hn2 := h n (by simp)
    unfold Radj at hn2 ⊢
    exact hn2

/-- `coalesce` repairs the invariants around a newly freed block and
returns a free block whose `prev_alloc` bit is set. -/
theorem coalesceZ_ok (preR : List Blk) (b : Blk) (post : List Blk)
    (hb : b.alloc = false)
    (h1 : List.Chain' (flip Radj) preR)
    (h2 : List.Chain' Radj post)
    (h3 : List.Chain' (flip Rpal) (preR ++ [proB]))
    (h4 : List.Chain' Rpal post)
    (hx : ∀ x ∈ (preR ++ [proB]).head?, Rpal x b)
    (hn : ∀ y ∈ post.head?, Rpal b y) :
    ZOk Radj (coalesceZ preR b post).1 (coalesceZ preR b post).2.1
        (coalesceZ preR b post).2.2 ∧
      ZOk Rpal ((coalesceZ preR b post).1 ++ [proB])
        (coalesceZ preR b post).2.1 (coalesceZ preR b post).2.2 ∧
      (coalesceZ preR b post).2.1.alloc = false ∧
      (coalesceZ preR b post).2.1.palloc = true := by
  have hmem : ∀ x ∈ preR.head?, x ∈ (preR ++ [proB]).head? := by
    cases preR with
    | nil => intro x hx2; simp at hx2
    | cons p r => intro x hx2; simpa using hx2
  cases hbp : b.palloc with
  | true =>
    have hxa : ∀ x ∈ preR.head?, Radj x b := by
      intro x hx2 hcon
      have := hx x (hmem x hx2)
      unfold Rpal at this
      rw [hbp, hcon.1] at this
      cases this
    cases post with
    | nil =>
      have e : coalesceZ preR b [] = (preR, b, []) := by
        unfold coalesceZ; rw [hbp]
      rw [e]
      refine ⟨⟨h1, hxa, ?_, ?_⟩, ⟨h3, hx, ?_, ?_⟩, hb, hbp⟩ <;>
        first
          | exact List.chain'_nil
          | (intro y hy; simp at hy)
    | cons n rest =>
      by_cases hna : n.alloc = true
      · have e : coalesceZ preR b (n :: rest) = (preR, b, n :: rest) := by
          unfold coalesceZ; rw [hbp]
          show (if n.alloc = true then _ else _) = _
          rw [if_pos hna]
        rw [e]
        refine ⟨⟨h1, hxa, ?_, h2⟩, ⟨h3, hx, hn, h4⟩, hb, hbp⟩
        intro y hy hcon
        have hyn : y = n := by simpa using hy.symm
        rw [hyn, hna] at hcon
        cases hcon.2
      · have hnf : n.alloc = false := by
          cases hc : n.alloc
          · rfl
          · exact absurd hc hna
        have e : coalesceZ preR b (n :: rest) =
            (preR, ⟨b.bsize + n.bsize, false, true⟩, rest) := by
          unfold coalesceZ; rw [hbp]
          show (if n.alloc = true then _ else _) = _
          rw [if_neg hna]
        rw [e]
        have h2' := List.chain'_cons'.mp h2
        have h4' := List.chain'_cons'.mp h4
        refine ⟨⟨h1, ?_, ?_, h2'.2⟩, ⟨h3, ?_, ?_, h4'.2⟩, rfl, rfl⟩
        · intro x hx2 hcon
          have := hx x (hmem x hx2)
          unfold Rpal at this
          rw [hbp, hcon.1] at this
          cases this
        · intro y hy hcon
          exact h2'.1 y hy ⟨hnf, hcon.2⟩
        · intro x hx2
          have := hx x hx2
          unfold Rpal at this ⊢
          rw [← this, hbp]
        · intro y hy
          have := h4'.1 y hy
          unfold Rpal at this ⊢
          rw [this, hnf]
  | false =>
    cases preR with
    | nil =>
      have := hx proB rfl
      unfold Rpal proB at this
      rw [hbp] at this
      cases this
    | cons p rest =>
      have h1' := List.chain'_cons'.mp h1
      have h3' := List.chain'_cons'.mp
        (show List.Chain' (flip Rpal) (p :: (rest ++ [proB])) by simpa using h3)
      have hpb := hx p rfl
      have hpfree : p.alloc = false := by
        unfold Rpal at hpb
        rw [← hpb, hbp]
      obtain ⟨x0, hx0⟩ : ∃ x0, (rest ++ [proB]).head? = some x0 := by
        cases rest <;> exact ⟨_, rfl⟩
      have hx0a : x0.alloc = true := by
        cases rest with
        | nil =>
          have hxp : proB = x0 := by simpa using hx0
          rw [← hxp]; rfl
        | cons p2 r2 =>
          have hxp : p2 = x0 := by simpa using hx0
          subst hxp
          have ha := h1'.1 p2 rfl
          cases hc : p2.alloc
          · exact absurd ⟨hc, hpfree⟩ ha
          · rfl
      have hpp : p.palloc = true := by
        have := h3'.1 x0 hx0
        unfold flip Rpal at this
        rw [this, hx0a]
      have hpre2 : ∀ x ∈ rest.head?, Radj x ⟨b.bsize + p.bsize, false, p.palloc⟩ := by
        intro x hx2 hcon
        exact h1'.1 x hx2 ⟨hcon.1, hpfree⟩
      have hpre3 : ∀ x ∈ (rest ++ [proB]).head?,
          Rpal x ⟨b.bsize + p.bsize, false, p.palloc⟩ := by
        intro x hx2
        exact h3'.1 x hx2
      cases post with
      | nil =>
        have e : coalesceZ (p :: rest) b [] =
            (rest, ⟨b.bsize + p.bsize, false, p.palloc⟩, []) := by
          unfold coalesceZ; rw [hbp]
        rw [e]
        refine ⟨⟨h1'.2, hpre2, ?_, ?_⟩, ⟨h3'.2, hpre3, ?_, ?_⟩, rfl, hpp⟩ <;>
          first
            | exact List.chain'_nil
            | (intro y hy; simp at hy)
      | cons n rest2 =>
        by_cases hna : n.alloc = true
        · have e : coalesceZ (p :: rest) b (n :: rest2) =
              (rest, ⟨b.bsize + p.bsize, false, p.palloc⟩, n :: rest2) := by
            unfold coalesceZ; rw [hbp]
            show (if n.alloc = true then _ else _) = _
            rw [if_pos hna]
          rw [e]
          refine ⟨⟨h1'.2, hpre2, ?_, h2⟩, ⟨h3'.2, hpre3, ?_, h4⟩, rfl, hpp⟩
          · intro y hy hcon
            have hyn : y = n := by simpa using hy.symm
            rw [hyn, hna] at hcon
            cases hcon.2
          · intro y hy
            have hyn : y = n := by simpa using hy.symm
            subst hyn
            have := hn y rfl
            unfold Rpal at this ⊢
            rw [this, hb]
        · have hnf : n.alloc = false := by
            cases hc : n.alloc
            · rfl
            · exact absurd hc hna
          have e : coalesceZ (p :: rest) b (n :: rest2) =
              (rest, ⟨b.bsize + p.bsize + n.bsize, false, true⟩, rest2) := by
            unfold coalesceZ; rw [hbp]
            show (if n.alloc = true then _ else _) = _
            rw [if_neg hna]
          rw [e]
          have h2' := List.chain'_cons'.mp h2
          have h4' := List.chain'_cons'.mp h4
          refine ⟨⟨h1'.2, ?_, ?_, h2'.2⟩, ⟨h3'.2, ?_, ?_, h4'.2⟩, rfl, rfl⟩
          · intro x hx2 hcon
            exact h1'.1 x hx2 ⟨hcon.1, hpfree⟩
          · intro y hy hcon
            exact h2'.1 y hy ⟨hnf, hcon.2⟩
          · intro x hx2
            have hxx : x0 = x := Option.some.inj (hx0.symm.trans hx2)
            unfold Rpal
            rw [← hxx, hx0a]
          · intro y hy
            have := h4'.1 y hy
            unfold Rpal at this ⊢
            rw [this, hnf]


/-- Decomposing a list at a valid index. -/
theorem take_getD_drop (l : List Blk) (k : Nat) (hk : k < l.length) :
    l.take k ++ l.getD k default :: l.drop (k + 1) = l := by
  induction l generalizing k with
  | nil => simp at hk
  | cons a l ih =>
    cases k with
    | zero => simp
    | succ k2 =>
      simp only [List.take_succ_cons, List.drop_succ_cons, List.getD_cons_succ,
        List.cons_append, List.cons.injEq, true_and]
      exact ih k2 (by simpa using hk)

/-- Flattening the zipper focused at a valid index gives the list back. -/
theorem zip_flatten (l : List Blk) (k : Nat) (hk : k < l.length) :
    toListZ ((l.take k).reverse, l.getD k default, l.drop (k + 1)) = l := by
  show (l.take k).reverse.reverse ++ l.getD k default :: l.drop (k + 1) = l
  rw [List.reverse_reverse]
  exact take_getD_drop l k hk

/-- `free` preserves the invariants (zipper form). -/
theorem freeZ_inv (preR : List Blk) (b : Blk) (post : List Blk)
    (_hb : b.alloc = true) (hI : Inv (toListZ (preR, b, post))) :
    Inv (freeZ preR b post) := by
  have hZ := (inv_zip_iff preR b post).mp hI
  unfold ZOk at hZ
  obtain ⟨⟨a1, a2, a3, a4⟩, p1, p2, p3, p4⟩ := hZ
  have hz := coalesceZ_ok preR ⟨b.bsize, false, b.palloc⟩
    (setPallocHead false post) rfl a1
    (spl_chain Radj (fun _ _ _ h => h) false post a4) p1
    (spl_chain Rpal (fun _ _ _ h => h) false post p4) p2
    (spl_head_rpal false post ⟨b.bsize, false, b.palloc⟩ rfl)
  unfold ZOk at hz
  obtain ⟨⟨b1, b2, b3, b4⟩, ⟨q1, q2, q3, q4⟩, hal, _⟩ := hz
  unfold freeZ
  show Inv
    (if (match setPallocHead false post with
          | [_] => true
          | _ => false) = true
      then toListZ (coalesceZ preR ⟨b.bsize, false, b.palloc⟩
        (setPallocHead false post))
      else (coalesceZ preR ⟨b.bsize, false, b.palloc⟩
          (setPallocHead false post)).1.reverse ++
        (coalesceZ preR ⟨b.bsize, false, b.palloc⟩
          (setPallocHead false post)).2.1 ::
        setPallocHead false (coalesceZ preR ⟨b.bsize, false, b.palloc⟩
          (setPallocHead false post)).2.2)
  split
  · exact (inv_zip_iff _ _ _).mpr
      ⟨⟨b1, b2, b3, b4⟩, ⟨q1, q2, q3, q4⟩⟩
  · exact (inv_zip_iff _ _ _).mpr
      ⟨⟨b1, b2, spl_head_radj false _ _ b3,
        spl_chain Radj (fun _ _ _ h => h) false _ b4⟩,
       ⟨q1, q2, spl_head_rpal false _ _ hal,
        spl_chain Rpal (fun _ _ _ h => h) false _ q4⟩⟩

/-- `place` preserves the invariants (zipper form). -/
theorem placeZ_inv (preR : List Blk) (b : Blk) (post : List Blk) (asize : Nat)
    (hb : b.alloc = false) (hI : Inv (toListZ (preR, b, post))) :
    Inv (placeZ preR b post asize) := by
  have hZ := (inv_zip_iff preR b post).mp hI
  unfold ZOk at hZ
  obtain ⟨⟨a1, a2, a3, a4⟩, p1, p2, p3, p4⟩ := hZ
  have hxa : ∀ x ∈ (preR ++ [proB]).head?, x.alloc = true := by
    cases preR with
    | nil =>
      intro x hx
      have hxp : x = proB := by simpa using hx.symm
      rw [hxp]; rfl
    | cons p r =>
      intro x hx
      have hxp : x = p := by simpa using hx.symm
      subst hxp
      have := a2 x rfl
      unfold Radj at this
      cases hc : x.alloc
      · exact absurd ⟨hc, hb⟩ this
      · rfl
  have hrem : ∀ y ∈ post.head?, ∀ (m : Blk), m.alloc = false → Radj m y := by
    intro y hy m hm hcon
    exact a3 y hy ⟨hb, hcon.2⟩
  unfold placeZ
  split
  · refine (inv_zip_iff preR ⟨asize, true, true⟩
      (⟨(b.bsize + 18446744073709551616 - asize) % 18446744073709551616,
        false, true⟩ :: setPallocHead false post)).mpr ⟨⟨a1, ?_, ?_, ?_⟩,
      ⟨p1, ?_, ?_, ?_⟩⟩
    · intro x hx hcon
      cases hcon.2
    · intro y hy hcon
      cases hcon.1
    · refine List.chain'_cons'.mpr ⟨?_,
        spl_chain Radj (fun _ _ _ h => h) false post a4⟩
      exact spl_head_radj false post _ (fun y hy => hrem y hy _ rfl)
    · intro x hx
      unfold Rpal
      rw [hxa x hx]
    · intro y hy
      have hyr := Option.some.inj hy.symm
      subst hyr
      rfl
    · refine List.chain'_cons'.mpr ⟨?_,
        spl_chain Rpal (fun _ _ _ h => h) false post p4⟩
      exact spl_head_rpal false post _ rfl
  · refine (inv_zip_iff preR ⟨b.bsize, true, true⟩
      (setPallocHead true post)).mpr ⟨⟨a1, ?_, ?_, ?_⟩, ⟨p1, ?_, ?_, ?_⟩⟩
    · intro x hx hcon
      cases hcon.2
    · intro y hy hcon
      cases hcon.1
    · exact spl_chain Radj (fun _ _ _ h => h) true post a4
    · intro x hx
      unfold Rpal
      rw [hxa x hx]
    · exact spl_head_rpal true post _ rfl
    · exact spl_chain Rpal (fun _ _ _ h => h) true post p4

/-- `extend_heap` preserves the invariants and yields a free block with
`prev_alloc` set. -/
theorem extendZ_ok (l : List Blk) (ext : Nat) (hI : Inv l) :
    ZOk Radj (extendZ l ext).1 (extendZ l ext).2.1 (extendZ l ext).2.2 ∧
      ZOk Rpal ((extendZ l ext).1 ++ [proB]) (extendZ l ext).2.1
        (extendZ l ext).2.2 ∧
      (extendZ l ext).2.1.alloc = false ∧
      (extendZ l ext).2.1.palloc = true := by
  have h1 : List.Chain' (flip Radj) l.reverse := List.chain'_reverse.mpr hI.1
  have h3 : List.Chain' (flip Rpal) (l.reverse ++ [proB]) := by
    rw [← List.reverse_cons]
    exact List.chain'_reverse.mpr hI.2
  have hx : ∀ x ∈ (l.reverse ++ [proB]).head?,
      Rpal x ⟨ext, false,
        match l.getLast? with | some x => x.alloc | none => true⟩ := by
    cases hr : l.reverse with
    | nil =>
      have hg : l.getLast? = none := by rw [← List.head?_reverse, hr]; rfl
      intro x hx2
      have hxp : x = proB := by simpa [hr] using hx2.symm
      subst hxp
      unfold Rpal
      rw [hg]
      rfl
    | cons r rs =>
      have hg : l.getLast? = some r := by rw [← List.head?_reverse, hr]; rfl
      intro x hx2
      have hxp : x = r := by simpa [hr] using hx2.symm
      subst hxp
      unfold Rpal
      rw [hg]
  unfold extendZ
  exact coalesceZ_ok l.reverse _ [] rfl h1 List.chain'_nil h3 List.chain'_nil
    hx (by intro y hy; simp at hy)

/-- `malloc` preserves the invariants. -/
theorem mallocAt_inv (l : List Blk) (fit ext : Option Nat) (asize : Nat)
    (hI : Inv l) (hpre : mallocPre l fit) : Inv (mallocAt l fit ext asize) := by
  cases fit with
  | some k =>
    obtain ⟨hk, hfree⟩ := hpre
    show Inv (placeZ (l.take k).reverse (l.getD k default) (l.drop (k + 1)) asize)
    exact placeZ_inv _ _ _ _ hfree (by rw [zip_flatten l k hk]; exact hI)
  | none =>
    cases ext with
    | some e =>
      show Inv (placeZ (extendZ l e).1 (extendZ l e).2.1 (extendZ l e).2.2 asize)
      have hx := extendZ_ok l e hI
      exact placeZ_inv _ _ _ _ hx.2.2.1 ((inv_zip_iff _ _ _).mpr ⟨hx.1, hx.2.1⟩)
    | none => exact hI

/-- `free` at a valid index of an allocated block preserves the
invariants. -/
theorem freeAt_inv (l : List Blk) (k : Nat) (hk : k < l.length)
    (ha : (l.getD k default).alloc = true) (hI : Inv l) : Inv (freeAt l k) :=
  freeZ_inv _ _ _ ha (by rw [zip_flatten l k hk]; exact hI)


/-- C4: in every heap state satisfying the invariants no two adjacent
blocks are both free, and the block lists produced by every public
operation — `malloc` (place at the found fit, or at the extended
wilderness, or fail), `free` of an allocated block, `realloc`
(allocate-copy-free) and `calloc` — again have no two adjacent free
blocks. -/
theorem c4_no_adjacent_free (l : List Blk) (hI : Inv l) :
    noAdjFree l ∧
    (∀ fit ext asize, mallocPre l fit →
      noAdjFree (mallocAt l fit ext asize)) ∧
    (∀ k, k < l.length → (l.getD k default).alloc = true →
      noAdjFree (freeAt l k)) ∧
    (∀ fit ext asize j, mallocPre l fit →
      (mallocOk fit ext = true →
        j < (mallocAt l fit ext asize).length ∧
          ((mallocAt l fit ext asize).getD j default).alloc = true) →
      noAdjFree (reallocAt l fit ext asize j)) ∧
    (∀ fit ext asize, mallocPre l fit →
      noAdjFree (callocAt l fit ext asize)) := by
  refine ⟨hI.1, ?_, ?_, ?_, ?_⟩
  · intro fit ext asize hpre
    exact (mallocAt_inv l fit ext asize hI hpre).1
  · intro k hk ha
    exact (freeAt_inv l k hk ha hI).1
  · intro fit ext asize j hpre hj
    unfold reallocAt
    by_cases hok : mallocOk fit ext = true
    · rw [if_pos hok]
      exact (freeAt_inv _ j (hj hok).1 (hj hok).2
        (mallocAt_inv l fit ext asize hI hpre)).1
    · rw [if_neg hok]
      exact hI.1
  · intro fit ext asize hpre
    exact (mallocAt_inv l fit ext asize hI hpre).1

theorem c4_no_adjacent_free_witness :
    Inv heapW ∧
    mallocPre heapW (some 1) ∧
    noAdjFree heapW ∧
    noAdjFree (mallocAt heapW (some 1) none 48) ∧
    noAdjFree (freeAt heapW 0) ∧
    noAdjFree (reallocAt heapW (some 1) none 48 0) ∧
    noAdjFree (callocAt heapW (some 1) none 48) := by
  have h := c4_no_adjacent_free heapW (by decide)
  exact ⟨by decide, by decide, h.1,
    h.2.1 (some 1) none 48 (by decide),
    h.2.2.1 0 (by decide) (by decide),
    h.2.2.2.1 (some 1) none 48 0 (by decide) (fun _ => by decide),
    h.2.2.2.2 (some 1) none 48 (by decide)⟩

/-- C5: under the invariants, the block `coalesce` returns for a newly
freed block carries `prev_alloc = PALLOC` in all four neighbour cases,
including case 3, where the copied bit `pr` of the absorbed predecessor
is itself `PALLOC` because the block before that predecessor must be
allocated. -/
theorem c5_coalesce_palloc (preR : List Blk) (b : Blk) (post : List Blk)
    (hb : b.alloc = false)
    (h1 : List.Chain' (flip Radj) preR)
    (h2 : List.Chain' Radj post)
    (h3 : List.Chain' (flip Rpal) (preR ++ [proB]))
    (h4 : List.Chain' Rpal post)
    (hx : ∀ x ∈ (preR ++ [proB]).head?, Rpal x b)
    (hn : ∀ y ∈ post.head?, Rpal b y) :
    (coalesceZ preR b post).2.1.palloc = true :=
  (coalesceZ_ok preR b post hb h1 h2 h3 h4 hx hn).2.2.2

theorem c5_coalesce_palloc_witness :
    (⟨48, false, false⟩ : Blk).alloc = false ∧
    List.Chain' (flip Radj) [(⟨48, false, true⟩ : Blk)] ∧
    List.Chain' Radj [(⟨24, true, false⟩ : Blk)] ∧
    List.Chain' (flip Rpal) ([(⟨48, false, true⟩ : Blk)] ++ [proB]) ∧
    List.Chain' Rpal [(⟨24, true, false⟩ : Blk)] ∧
    (∀ x ∈ ([(⟨48, false, true⟩ : Blk)] ++ [proB]).head?,
      Rpal x ⟨48, false, false⟩) ∧
    (∀ y ∈ [(⟨24, true, false⟩ : Blk)].head?,
      Rpal (⟨48, false, false⟩ : Blk) y) ∧
    (coalesceZ [⟨48, false, true⟩] ⟨48, false, false⟩
      [⟨24, true, false⟩]).2.1.palloc = true := by
  refine ⟨rfl, by decide, by decide, by decide, by decide,
    ?_, ?_, ?_⟩
  · intro x hx
    have hxp : x = ⟨48, false, true⟩ := by simpa using hx.symm
    subst hxp
    rfl
  · intro y hy
    have hyp : y = ⟨24, true, false⟩ := by simpa using hy.symm
    subst hyp
    rfl
  · exact c5_coalesce_palloc [⟨48, false, true⟩] ⟨48, false, false⟩
      [⟨24, true, false⟩] rfl (by decide) (by decide) (by decide) (by decide)
      (by intro x hx
          have hxp : x = ⟨48, false, true⟩ := by simpa using hx.symm
          subst hxp
          rfl)
      (by intro y hy
          have hyp : y = ⟨24, true, false⟩ := by simpa using hy.symm
          subst hyp
          rfl)

end MM.BM
